import Mathlib

/-!
Verification development for the talk-to-claude voice-control core.

The definitions below are a shallow embedding of the Python source:
`transcription/command_parser.py` (voice-command classification),
`iterm/position_detector.py` (split-pane geometry), `iterm/session_manager.py`
(session registry) and the transcript-dispatch logic of `main.py`.
Sessions are modelled by their stable ids (`Nat`); strings are modelled as
`List Char` with ASCII case folding, matching the ASCII behaviour of the
Python string operations used by the source.
-/

/-! ## Character and string primitives (Python `str` operations) -/

/-- Python `\s` / `str.strip` whitespace, ASCII range. -/
def isSpc (c : Char) : Bool :=
  c = ' ' || c = '\t' || c = '\n' || c = '\r' || c = '\x0b' || c = '\x0c'

/-- ASCII `str.lower` on a single character. -/
def lowerChar (c : Char) : Char :=
  if 'A' ≤ c ∧ c ≤ 'Z' then Char.ofNat (c.toNat + 32) else c

/-- ASCII `str.lower`. -/
def lowerL (l : List Char) : List Char := l.map lowerChar

/-- `str.strip()`: drop whitespace from both ends. -/
def stripL (l : List Char) : List Char :=
  ((l.dropWhile isSpc).reverse.dropWhile isSpc).reverse

/-- Shorthand for string literals as character lists. -/
def toL (s : String) : List Char := s.toList

/-- Helper for `str.find`: leftmost index (counted from `i`) at which
`needle` occurs in `hay`. -/
def findSubAux (needle : List Char) : List Char → Nat → Option Nat
  | [], i => if needle.isPrefixOf [] then some i else none
  | c :: rest, i =>
    if needle.isPrefixOf (c :: rest) then some i else findSubAux needle rest (i + 1)

/-- Python `hay.find(needle)` restricted to found/not-found as `Option`. -/
def findSub (needle hay : List Char) : Option Nat := findSubAux needle hay 0

/-- Python `needle in hay` substring containment. -/
def containsSub (needle hay : List Char) : Bool := (findSub needle hay).isSome

/-- Helper for `str.split()` (split on whitespace runs, no empty words). -/
def splitWsAux : List Char → List Char → List (List Char)
  | [], acc => if acc.isEmpty then [] else [acc.reverse]
  | c :: rest, acc =>
    if isSpc c then
      (if acc.isEmpty then splitWsAux rest [] else acc.reverse :: splitWsAux rest [])
    else splitWsAux rest (c :: acc)

/-- Python `str.split()` with no arguments. -/
def splitWs (l : List Char) : List (List Char) := splitWsAux l []

/-! ## Position model (`command_parser.py`) -/

/-- `HorizontalPosition` enum. -/
inductive HorizontalPosition where
  | left
  | center
  | right
deriving DecidableEq

/-- `VerticalPosition` enum. -/
inductive VerticalPosition where
  | upper
  | middle
  | lower
deriving DecidableEq

/-- `WindowPosition` dataclass. -/
structure WindowPosition where
  horizontal : HorizontalPosition
  vertical : VerticalPosition
deriving DecidableEq

/-- `CommandType` enum. -/
inductive CommandType where
  | WINDOW_COMMAND
  | END_VOICE
  | CLEAR_RESTART
  | TEXT
deriving DecidableEq

/-- `ParseResult` dataclass. -/
structure ParseResult where
  type : CommandType
  position : Option WindowPosition := none
  text : Option String := none
deriving DecidableEq

/-! ## The window-command regular expression

`CommandParser.WINDOW_PATTERNS` holds the single pattern
`(?:activate|go to|switch to)\s+(?:the\s+)?(.+?)\s*(?:window|pane)?$`,
searched with `re.search` and `re.IGNORECASE`. The functions below implement
Python's backtracking semantics for exactly this pattern on lower-cased text:
leftmost starting position wins; the greedy `\s+`/`(?:the\s+)?` pieces prefer
consuming and backtrack on failure; the lazy `(.+?)` prefers the shortest
capture; `.` does not match a newline; `$` matches at the end of the string or
just before a terminal newline. -/

/-- Does `r` match the trailing sub-pattern `\s*(?:window|pane)?$`? -/
def matchTail (r : List Char) : Bool :=
  let t := r.dropWhile isSpc
  t = [] || t = toL "window" || t = toL "pane"
    || t = toL "window" ++ ['\n'] || t = toL "pane" ++ ['\n']

/-- Lazy `(.+?)` followed by `\s*(?:window|pane)?$`: the shortest non-empty
newline-free capture whose remaining suffix matches the tail. -/
def tryCapture : List Char → List Char → Option (List Char)
  | _, [] => none
  | acc, c :: rest =>
    if c = '\n' then none
    else if matchTail rest then some (acc ++ [c])
    else tryCapture (acc ++ [c]) rest

/-- Length of the leading whitespace run. -/
def wsLen (l : List Char) : Nat := (l.takeWhile isSpc).length

/-- Greedy backtracking for the `\s+` inside `(?:the\s+)?`: consume `k`
whitespace characters, preferring the longest. -/
def innerLoop (r : List Char) : Nat → Option (List Char)
  | 0 => none
  | k + 1 =>
    match tryCapture [] (r.drop (k + 1)) with
    | some cap => some cap
    | none => innerLoop r k

/-- Matching after the verb's `\s+`: the optional greedy `(?:the\s+)?`
followed by the capture, with backtracking to the no-`the` branch. -/
def tryAfterWs (cs : List Char) : Option (List Char) :=
  let theBranch :=
    if (toL "the").isPrefixOf cs then
      let r := cs.drop 3
      innerLoop r (wsLen r)
    else none
  match theBranch with
  | some cap => some cap
  | none => tryCapture [] cs

/-- Greedy backtracking for the `\s+` directly after the verb. -/
def outerLoop (rest : List Char) : Nat → Option (List Char)
  | 0 => none
  | k + 1 =>
    match tryAfterWs (rest.drop (k + 1)) with
    | some cap => some cap
    | none => outerLoop rest k

/-- Match everything after the verb alternation. -/
def afterVerb (rest : List Char) : Option (List Char) :=
  outerLoop rest (wsLen rest)

/-- The verb alternation `(?:activate|go to|switch to)` at the current
position. -/
def stripVerb (cs : List Char) : Option (List Char) :=
  if (toL "activate").isPrefixOf cs then some (cs.drop 8)
  else if (toL "go to").isPrefixOf cs then some (cs.drop 5)
  else if (toL "switch to").isPrefixOf cs then some (cs.drop 9)
  else none

/-- `re.search` over the pattern: try every start position left to right and
return `group(1)` of the first full match. -/
def reSearch : List Char → Option (List Char)
  | [] => none
  | c :: rest =>
    match stripVerb (c :: rest) with
    | some r =>
      match afterVerb r with
      | some cap => some cap
      | none => reSearch rest
    | none => reSearch rest

/-! ## Command parsing (`command_parser.py`) -/

/-- `CommandParser.HORIZONTAL_WORDS` dictionary. -/
def lookupHorizontal (w : List Char) : Option HorizontalPosition :=
  if w = toL "left" then some .left
  else if w = toL "right" then some .right
  else if w = toL "center" then some .center
  else if w = toL "middle" then some .center
  else none

/-- `CommandParser.VERTICAL_WORDS` dictionary. -/
def lookupVertical (w : List Char) : Option VerticalPosition :=
  if w = toL "upper" then some .upper
  else if w = toL "top" then some .upper
  else if w = toL "lower" then some .lower
  else if w = toL "bottom" then some .lower
  else if w = toL "middle" then some .middle
  else if w = toL "center" then some .middle
  else none

/-- The word loop of `_parse_position`: each word is looked up first in the
horizontal table, `elif` in the vertical table; later matches overwrite. -/
def posLoop : List (List Char) →
    Option HorizontalPosition → Option VerticalPosition →
    Option HorizontalPosition × Option VerticalPosition
  | [], h, v => (h, v)
  | w :: ws, h, v =>
    match lookupHorizontal w with
    | some hp => posLoop ws (some hp) v
    | none =>
      match lookupVertical w with
      | some vp => posLoop ws h (some vp)
      | none => posLoop ws h v

/-- The `any(...)` guard of `_parse_position`. -/
def anyPositionWord (ws : List (List Char)) : Bool :=
  ws.any fun w => (lookupHorizontal w).isSome || (lookupVertical w).isSome

/-- `CommandParser._parse_position` on the (lower-cased) captured span. -/
def parsePosition (positionText : List Char) : Option WindowPosition :=
  let ws := splitWs positionText
  let hv := posLoop ws none none
  if anyPositionWord ws then
    some ⟨hv.1.getD .center, hv.2.getD .middle⟩
  else none

/-- `CommandParser._parse_window_command` on lower-cased text. -/
def parseWindowCommand (textLower : List Char) : Option WindowPosition :=
  match reSearch textLower with
  | some cap => parsePosition cap
  | none => none

/-- The configured phrase lists of a `CommandParser` instance (stored
lower-cased, as `__init__` does). -/
structure CommandParser where
  endVoicePhrases : List (List Char)
  clearRestartPhrases : List (List Char)
deriving DecidableEq

/-- The default clear/restart phrase list of `__init__`. -/
def defaultClearRestart : List (List Char) :=
  [toL "clear and restart", toL "start over", toL "never mind"]

/-- `CommandParser.__init__` (`or`-defaulting of the phrase lists included:
an empty configured list falls back to the defaults, as in Python). -/
def mkCommandParser (endVoicePhrase : String)
    (additionalEndPhrases : Option (List String))
    (clearRestartPhrases : Option (List String)) : CommandParser where
  endVoicePhrases :=
    lowerL (toL endVoicePhrase) ::
      (match additionalEndPhrases with
       | some ps => ps.map fun p => lowerL (toL p)
       | none => [])
  clearRestartPhrases :=
    match clearRestartPhrases with
    | some [] => defaultClearRestart.map lowerL
    | some ps => ps.map fun p => lowerL (toL p)
    | none => defaultClearRestart.map lowerL

/-- A parser built with all constructor defaults. -/
def defaultCommandParser : CommandParser := mkCommandParser "end voice" none none

/-- The end-voice loop of `parse`: first phrase contained in the text wins,
returning the index of its first occurrence. -/
def findFirstEnd : List (List Char) → List Char → Option Nat
  | [], _ => none
  | p :: ps, tl =>
    match findSub p tl with
    | some i => some i
    | none => findFirstEnd ps tl

/-- `CommandParser.parse`. -/
def CommandParser.parse (self : CommandParser) (textIn : String) : ParseResult :=
  let text := stripL textIn.toList
  let textLower := lowerL text
  match self.clearRestartPhrases.find? (fun p => containsSub p textLower) with
  | some _ => ⟨.CLEAR_RESTART, none, none⟩
  | none =>
    match findFirstEnd self.endVoicePhrases textLower with
    | some idx =>
      let pre := stripL (text.take idx)
      ⟨.END_VOICE, none, if pre.isEmpty then none else some ⟨pre⟩⟩
    | none =>
      match parseWindowCommand textLower with
      | some pos => ⟨.WINDOW_COMMAND, some pos, none⟩
      | none => ⟨.TEXT, none, some ⟨text⟩⟩

/-! ## Layout resolver (`position_detector.py`) -/

/-- `SessionPosition` dataclass, with the session modelled by its id. -/
structure SessionPosition where
  session : Nat
  horizontal : HorizontalPosition
  vertical : VerticalPosition
  row : Nat
  col : Nat
deriving DecidableEq

/-- The split-layout tree under `tab.root`: a leaf `iterm2.Session` or an
`iterm2.Splitter` with its `vertical` flag (`true` = children arranged left
to right) and ordered children. -/
inductive SplitTree where
  | session (sid : Nat)
  | splitter (vertical : Bool) (children : List SplitTree)

/-- Grids are lists of rows of optional session ids. -/
abbrev Grid := List (List (Option Nat))

/-- `len(grid[0]) if grid else 1`, the padding width used by the merges. -/
def padWidth (g : Grid) : Nat :=
  match g with
  | [] => 1
  | r :: _ => r.length

/-- One grid's contribution to output row `r` of a horizontal merge:
its own row if it has one, otherwise `[None] * cols` padding. -/
def hRowCell (r : Nat) (g : Grid) : List (Option Nat) :=
  match g[r]? with
  | some row => row
  | none => List.replicate (padWidth g) none

/-- Output row `r` of `_merge_horizontal`: the concatenation of every
grid's contribution, in order. -/
def hRow (grids : List Grid) (r : Nat) : List (Option Nat) :=
  grids.foldr (fun g acc => hRowCell r g ++ acc) []

/-- `max(len(g) for g in grids)` (as a fold, `0` on the empty list). -/
def maxRows (grids : List Grid) : Nat :=
  grids.foldr (fun g m => max g.length m) 0

/-- `PositionDetector._merge_horizontal`. -/
def mergeHorizontal (grids : List Grid) : Grid :=
  if grids.isEmpty then []
  else (List.range (maxRows grids)).map (hRow grids)

/-- `max(len(g[0]) if g else 1 for g in grids)` (as a fold). -/
def maxCols (grids : List Grid) : Nat :=
  grids.foldr (fun g m => max (padWidth g) m) 0

/-- `row + [None] * (max_cols - len(row))` (`Nat` subtraction matches
Python's empty list on negative counts). -/
def padRow (n : Nat) (row : List (Option Nat)) : List (Option Nat) :=
  row ++ List.replicate (n - row.length) none

/-- `PositionDetector._merge_vertical`. -/
def mergeVertical (grids : List Grid) : Grid :=
  if grids.isEmpty then []
  else grids.foldr (fun g acc => g.map (padRow (maxCols grids)) ++ acc) []

mutual

/-- `PositionDetector._build_grid` (a session child becomes `[[child]]`;
a splitter child recurses). -/
def buildGrid : SplitTree → Grid
  | .session sid => [[some sid]]
  | .splitter true cs => mergeHorizontal (gridsOf cs)
  | .splitter false cs => mergeVertical (gridsOf cs)

/-- The per-child grids collected by `_build_grid`'s loop. -/
def gridsOf : List SplitTree → List Grid
  | [] => []
  | t :: ts => buildGrid t :: gridsOf ts

end

/-- Horizontal classification of `_grid_to_positions`. -/
def classifyH (numCols colIdx : Nat) : HorizontalPosition :=
  if numCols = 1 then .center
  else if colIdx = 0 then .left
  else if colIdx = numCols - 1 then .right
  else .center

/-- Vertical classification of `_grid_to_positions`. -/
def classifyV (numRows rowIdx : Nat) : VerticalPosition :=
  if numRows = 1 then .middle
  else if rowIdx = 0 then .upper
  else if rowIdx = numRows - 1 then .lower
  else .middle

/-- The inner cell loop of `_grid_to_positions` over one row, threading the
`seen_sessions` set (modelled as a list) and emitting positions in order. -/
def gtpRow (numRows numCols rowIdx : Nat) :
    Nat → List (Option Nat) → List Nat → List SessionPosition × List Nat
  | _, [], seen => ([], seen)
  | colIdx, none :: rest, seen => gtpRow numRows numCols rowIdx (colIdx + 1) rest seen
  | colIdx, some sid :: rest, seen =>
    if sid ∈ seen then gtpRow numRows numCols rowIdx (colIdx + 1) rest seen
    else
      let res := gtpRow numRows numCols rowIdx (colIdx + 1) rest (sid :: seen)
      (⟨sid, classifyH numCols colIdx, classifyV numRows rowIdx, rowIdx, colIdx⟩ :: res.1,
       res.2)

/-- The outer row loop of `_grid_to_positions`. -/
def gtpRows (numRows numCols : Nat) :
    Nat → List (List (Option Nat)) → List Nat → List SessionPosition
  | _, [], _ => []
  | rowIdx, row :: rest, seen =>
    let res := gtpRow numRows numCols rowIdx 0 row seen
    res.1 ++ gtpRows numRows numCols (rowIdx + 1) rest res.2

/-- `PositionDetector._grid_to_positions`. -/
def gridToPositions (grid : Grid) : List SessionPosition :=
  match grid with
  | [] => []
  | firstRow :: rest =>
    if firstRow.isEmpty then []
    else gtpRows (firstRow :: rest).length firstRow.length 0 (firstRow :: rest) []

/-- `PositionDetector.compute_positions`. -/
def computePositions : SplitTree → List SessionPosition
  | .session sid => [⟨sid, .center, .middle, 0, 0⟩]
  | .splitter v cs => gridToPositions (buildGrid (.splitter v cs))

/-- `PositionDetector.find_session_by_position`. -/
def findSessionByPosition (positions : List SessionPosition)
    (target : WindowPosition) : Option Nat :=
  match positions.find? (fun pos =>
      pos.horizontal == target.horizontal && pos.vertical == target.vertical) with
  | some pos => some pos.session
  | none =>
    match (if target.vertical = .middle then
        positions.find? (fun pos => pos.horizontal == target.horizontal)
      else none) with
    | some pos => some pos.session
    | none =>
      match (if target.horizontal = .center then
          positions.find? (fun pos => pos.vertical == target.vertical)
        else none) with
      | some pos => some pos.session
      | none => none

/-! ## Session registry (`session_manager.py`) -/

/-- `ManagedSession` dataclass (session and tab modelled by ids). -/
structure ManagedSession where
  session : Nat
  tab : Nat
  position : Option SessionPosition := none
  isActive : Bool := false
deriving DecidableEq

/-- The mutable state of a `SessionManager`: the insertion-ordered
`_sessions` dict as an association list, and `_active_session_id`. -/
structure SessionManagerState where
  sessions : List (Nat × ManagedSession)
  activeSessionId : Option Nat
deriving DecidableEq

/-- The keys of the `_sessions` dict. -/
def sessionKeys (st : SessionManagerState) : List Nat := st.sessions.map (·.1)

/-- The registration loop of `refresh_sessions`: each observed session id not
yet registered is added (appended, as dict insertion does) when its owning
tab is found; ids whose tab lookup fails are skipped but still observed. -/
def addLoop (sessions : List (Nat × ManagedSession)) (observed : List Nat)
    (findTab : Nat → Option Nat) : List (Nat × ManagedSession) :=
  match observed with
  | [] => sessions
  | sid :: rest =>
    let sessions' :=
      if sid ∈ sessions.map (·.1) then sessions
      else
        match findTab sid with
        | some tb => sessions ++ [(sid, ⟨sid, tb, none, false⟩)]
        | none => sessions
    addLoop sessions' rest findTab

/-- `_update_positions` for one entry: the entry's position is overwritten by
the position computed for its tab whose session id matches (the last such,
per the assignment loop), and kept unchanged when none matches. -/
def updatePosition (posForTab : Nat → List SessionPosition)
    (kv : Nat × ManagedSession) : Nat × ManagedSession :=
  match ((posForTab kv.2.tab).reverse).find? (fun p => p.session = kv.2.session) with
  | some p => (kv.1, { kv.2 with position := some p })
  | none => kv

/-- `SessionManager.refresh_sessions`, with the backend abstracted: whether
the controller is connected, the observed Claude session ids, the owning-tab
lookup, and the per-tab computed positions. -/
def refreshSessions (st : SessionManagerState) (connected : Bool)
    (observed : List Nat) (findTab : Nat → Option Nat)
    (posForTab : Nat → List SessionPosition) : SessionManagerState :=
  if !connected then st
  else
    let s1 := addLoop st.sessions observed findTab
    let s2 := s1.filter fun kv => kv.1 ∈ observed
    let active' :=
      match st.activeSessionId with
      | some a => if a ∈ s1.map (·.1) ∧ a ∉ observed then none else some a
      | none => none
    ⟨s2.map (updatePosition posForTab), active'⟩

/-- Fallback 3 of `get_active_session`: adopt the single registered session. -/
def gasSingle (st : SessionManagerState) : Option Nat × SessionManagerState :=
  match st.sessions with
  | [kv] => (some kv.2.session, { st with activeSessionId := some kv.2.session })
  | _ => (none, st)

/-- Fallback 2 of `get_active_session`: the cached id, if still registered. -/
def gasCached (st : SessionManagerState) : Option Nat × SessionManagerState :=
  match st.activeSessionId with
  | some a =>
    match st.sessions.find? (fun kv => kv.1 = a) with
    | some kv => (some kv.2.session, st)
    | none => gasSingle st
  | none => gasSingle st

/-- `SessionManager.get_active_session`. `tabFocus` abstracts the backend:
`none` when no current tab, `some none` when the tab has no current session,
`some (some c)` when session `c` is focused. -/
def getActiveSession (st : SessionManagerState) (tabFocus : Option (Option Nat)) :
    Option Nat × SessionManagerState :=
  match tabFocus with
  | some (some cur) =>
    if cur ∈ sessionKeys st then (some cur, { st with activeSessionId := some cur })
    else gasCached st
  | _ => gasCached st

/-- `SessionManager.set_active_session` (the backend focus call is external;
the state effect is caching the id and recomputing the `is_active` flags). -/
def setActiveSession (st : SessionManagerState) (sid : Nat) : SessionManagerState where
  sessions := st.sessions.map fun kv => (kv.1, { kv.2 with isActive := kv.1 = sid })
  activeSessionId := some sid

/-- The spec's registry invariant: the active-id cache, if set, names a key
currently in the mapping. -/
def regInvariant (st : SessionManagerState) : Bool :=
  match st.activeSessionId with
  | none => true
  | some a => a ∈ sessionKeys st

/-- Structural well-formedness the code maintains: every entry is stored
under its own session id. -/
def keysConsistent (st : SessionManagerState) : Bool :=
  st.sessions.all fun kv => kv.2.session = kv.1

/-- Does the focus probe miss (no tab, no current session, or a current
session that is not a registry key)? -/
def focusMiss (st : SessionManagerState) (tabFocus : Option (Option Nat)) : Bool :=
  match tabFocus with
  | some (some c) => c ∉ sessionKeys st
  | _ => true

/-- Does the cached-active lookup miss (no cache, or a cached id that is no
longer a key)? -/
def cacheMiss (st : SessionManagerState) : Bool :=
  match st.activeSessionId with
  | none => true
  | some a => (st.sessions.find? (fun kv => kv.1 = a)).isNone

/-! ## Dispatch orchestrator (`main.py`) -/

/-- The orchestrator state the buffer claims are about: `_text_buffer`, plus
the sequence of strings handed to `submit_to_active`. -/
structure DaemonState where
  textBuffer : String
  submitted : List String
deriving DecidableEq

/-- `str.strip` on `String`. -/
def stripStr (s : String) : String := ⟨stripL s.toList⟩

/-- `TalkToClaudeDaemon._submit_text`: an all-whitespace buffer is not
submitted (and not cleared); otherwise the stripped buffer is handed to
`submit_to_active` exactly once and the buffer is cleared in the `finally`
block whether or not the submit succeeded (`ok`). -/
def submitText (st : DaemonState) (ok : Bool) : DaemonState :=
  if stripStr st.textBuffer = "" then st
  else
    let _ := ok
    { textBuffer := "", submitted := st.submitted ++ [stripStr st.textBuffer] }

/-- The command dispatch of `_process_transcript` restricted to its effect on
the buffer and on submission (window activation and line clearing act on the
registry and terminal, not on this state). -/
def handleResult (st : DaemonState) (r : ParseResult) (ok : Bool) : DaemonState :=
  match r.type with
  | .WINDOW_COMMAND => st
  | .CLEAR_RESTART => { st with textBuffer := "" }
  | .END_VOICE =>
    let st' :=
      match r.text with
      | some t =>
        if t ≠ "" then { st with textBuffer := st.textBuffer ++ " " ++ t } else st
      | none => st
    submitText st' ok
  | .TEXT =>
    { st with
      textBuffer :=
        if st.textBuffer ≠ "" then st.textBuffer ++ " " ++ (r.text.getD "")
        else r.text.getD "" }

/-- `TalkToClaudeDaemon._process_transcript` on a final transcript. -/
def processTranscript (cp : CommandParser) (st : DaemonState) (text : String)
    (ok : Bool) : DaemonState :=
  if stripStr text = "" then st else handleResult st (cp.parse text) ok

/-! ## Derived notions used by the statements -/

mutual

/-- The leaf session ids of a split tree, in order. -/
def leafIds : SplitTree → List Nat
  | .session sid => [sid]
  | .splitter _ cs => leafIdsList cs

/-- Leaf session ids of a forest. -/
def leafIdsList : List SplitTree → List Nat
  | [] => []
  | t :: ts => leafIds t ++ leafIdsList ts

end

/-- The session ids of a position list. -/
def posIds (l : List SessionPosition) : List Nat := l.map (·.session)

/-- Occurrence of a session id in some cell of a grid. -/
def gridMem (g : Grid) (x : Nat) : Prop := ∃ row ∈ g, some x ∈ row

/-- The width `_grid_to_positions` reads off: the first row's length. -/
def gridWidth : Grid → Nat
  | [] => 0
  | r :: _ => r.length

/-- A grid is rectangular: every row has the first row's length. -/
def Rect (g : Grid) : Prop := ∀ row ∈ g, row.length = gridWidth g

instance (g : Grid) : Decidable (Rect g) := by
  unfold Rect
  exact List.decidableBAll _ g

/-- Strong induction over split trees through the nested children list. -/
def SplitTree.strongInd {P : SplitTree → Prop}
    (hs : ∀ sid, P (.session sid))
    (hsp : ∀ v cs, (∀ t ∈ cs, P t) → P (.splitter v cs)) : ∀ t, P t
  | .session sid => hs sid
  | .splitter v cs => hsp v cs (fun t _ => SplitTree.strongInd hs hsp t)

/-! ## Helper lemmas: command parsing -/

theorem findFirstEnd_eq_none {ps : List (List Char)} {tl : List Char} :
    findFirstEnd ps tl = none ↔ ∀ p ∈ ps, findSub p tl = none := by
  induction ps with
  | nil => simp [findFirstEnd]
  | cons p ps ih =>
    simp only [findFirstEnd]
    cases h : findSub p tl with
    | some i => simp [h]
    | none => simp [h, ih]

theorem findFirstEnd_isSome {ps : List (List Char)} {tl : List Char}
    (h : ∃ p ∈ ps, containsSub p tl = true) : (findFirstEnd ps tl).isSome := by
  rcases h with ⟨p, hp, hc⟩
  rcases Option.isSome_iff_exists.mp hc with ⟨i, hi⟩
  induction ps with
  | nil => simp at hp
  | cons q ps ih =>
    simp only [findFirstEnd]
    cases hq : findSub q tl with
    | some j => simp
    | none =>
      rcases List.mem_cons.mp hp with rfl | hmem
      · simp [hq] at hi
      · exact ih hmem

theorem posLoop_fst_of_none {ws : List (List Char)}
    (h : ∀ w ∈ ws, lookupHorizontal w = none) :
    ∀ hz v, (posLoop ws hz v).1 = hz := by
  induction ws with
  | nil => intro hz v; rfl
  | cons w ws ih =>
    intro hz v
    have hw := h w (List.mem_cons_self w ws)
    have hrest : ∀ w' ∈ ws, lookupHorizontal w' = none :=
      fun w' hw' => h w' (List.mem_cons_of_mem w hw')
    simp only [posLoop, hw]
    cases hv : lookupVertical w with
    | some vp => exact ih hrest hz (some vp)
    | none => exact ih hrest hz v

theorem posLoop_snd_of {ws : List (List Char)}
    (h : ∀ w ∈ ws, lookupHorizontal w ≠ none ∨ lookupVertical w = none) :
    ∀ hz v, (posLoop ws hz v).2 = v := by
  induction ws with
  | nil => intro hz v; rfl
  | cons w ws ih =>
    intro hz v
    have hrest : ∀ w' ∈ ws, lookupHorizontal w' ≠ none ∨ lookupVertical w' = none :=
      fun w' hw' => h w' (List.mem_cons_of_mem w hw')
    simp only [posLoop]
    cases hh : lookupHorizontal w with
    | some hp => exact ih hrest (some hp) v
    | none =>
      rcases h w (List.mem_cons_self w ws) with hbad | hv
      · exact absurd hh hbad
      · simp only [hv]
        exact ih hrest hz v

theorem containsSub_false {p tl : List Char} (h : containsSub p tl = false) :
    findSub p tl = none := by
  unfold containsSub at h
  cases hf : findSub p tl with
  | none => rfl
  | some i => rw [hf] at h; simp at h

/-- C3: `parse` classifies by fixed priority with first match winning, using
case-insensitive substring containment: a configured clear/restart phrase
anywhere yields `CLEAR_RESTART`; else a configured end-of-input phrase yields
`END_VOICE`; else a resolving window-navigation pattern yields
`WINDOW_COMMAND`; else `TEXT` with the trimmed text. In particular
`parse "never mind"` yields `CLEAR_RESTART`, and the outcome is always one of
these results, never an error. -/
theorem parse_priority_order :
    defaultCommandParser.parse "never mind" = ⟨.CLEAR_RESTART, none, none⟩
    ∧ (∀ (cp : CommandParser) (t : String),
        (∃ p ∈ cp.clearRestartPhrases, containsSub p (lowerL (stripL t.toList)) = true) →
        cp.parse t = ⟨.CLEAR_RESTART, none, none⟩)
    ∧ (∀ (cp : CommandParser) (t : String),
        (∀ p ∈ cp.clearRestartPhrases, containsSub p (lowerL (stripL t.toList)) = false) →
        (∃ p ∈ cp.endVoicePhrases, containsSub p (lowerL (stripL t.toList)) = true) →
        (cp.parse t).type = .END_VOICE)
    ∧ (∀ (cp : CommandParser) (t : String) (pos : WindowPosition),
        (∀ p ∈ cp.clearRestartPhrases, containsSub p (lowerL (stripL t.toList)) = false) →
        (∀ p ∈ cp.endVoicePhrases, containsSub p (lowerL (stripL t.toList)) = false) →
        parseWindowCommand (lowerL (stripL t.toList)) = some pos →
        cp.parse t = ⟨.WINDOW_COMMAND, some pos, none⟩)
    ∧ (∀ (cp : CommandParser) (t : String),
        (∀ p ∈ cp.clearRestartPhrases, containsSub p (lowerL (stripL t.toList)) = false) →
        (∀ p ∈ cp.endVoicePhrases, containsSub p (lowerL (stripL t.toList)) = false) →
        parseWindowCommand (lowerL (stripL t.toList)) = none →
        cp.parse t = ⟨.TEXT, none, some ⟨stripL t.toList⟩⟩) := by
  refine ⟨by decide, ?_, ?_, ?_, ?_⟩
  · intro cp t h
    simp only [String.toList] at *
    have hsome : (cp.clearRestartPhrases.find?
        fun q => containsSub q (lowerL (stripL t.data))).isSome :=
      List.find?_isSome.mpr h
    rcases Option.isSome_iff_exists.mp hsome with ⟨q, hq⟩
    simp [CommandParser.parse, hq]
  · intro cp t hclear hend
    simp only [String.toList] at *
    have h1 : cp.clearRestartPhrases.find?
        (fun q => containsSub q (lowerL (stripL t.data))) = none :=
      List.find?_eq_none.mpr (by intro x hx; simp [hclear x hx])
    rcases Option.isSome_iff_exists.mp (findFirstEnd_isSome hend) with ⟨i, hi⟩
    simp [CommandParser.parse, h1, hi]
  · intro cp t pos hclear hend hwin
    simp only [String.toList] at *
    have h1 : cp.clearRestartPhrases.find?
        (fun q => containsSub q (lowerL (stripL t.data))) = none :=
      List.find?_eq_none.mpr (by intro x hx; simp [hclear x hx])
    have h2 : findFirstEnd cp.endVoicePhrases (lowerL (stripL t.data)) = none :=
      findFirstEnd_eq_none.mpr (fun p hp => containsSub_false (hend p hp))
    simp [CommandParser.parse, h1, h2, hwin]
  · intro cp t hclear hend hwin
    simp only [String.toList] at *
    have h1 : cp.clearRestartPhrases.find?
        (fun q => containsSub q (lowerL (stripL t.data))) = none :=
      List.find?_eq_none.mpr (by intro x hx; simp [hclear x hx])
    have h2 : findFirstEnd cp.endVoicePhrases (lowerL (stripL t.data)) = none :=
      findFirstEnd_eq_none.mpr (fun p hp => containsSub_false (hend p hp))
    simp [CommandParser.parse, h1, h2, hwin]

/-- Witness for C3: a text containing the default clear/restart phrase
"never mind" with surrounding words satisfies the priority theorem's
hypothesis and is classified `CLEAR_RESTART`. -/
theorem parse_priority_order_witness :
    (∃ p ∈ defaultCommandParser.clearRestartPhrases,
      containsSub p (lowerL (stripL (String.toList "oh never mind then"))) = true)
    ∧ defaultCommandParser.parse "oh never mind then" = ⟨.CLEAR_RESTART, none, none⟩ :=
  ⟨by decide, parse_priority_order.2.1 defaultCommandParser "oh never mind then" (by decide)⟩

/-- C4 counterexample: "switch to the left pane please" has trailing words
after the noun "pane", yet `parse` returns a `WINDOW_COMMAND` (the claim says
it must fall through to plain text). -/
theorem window_trailing_words_cex :
    defaultCommandParser.parse "switch to the left pane please"
      = ⟨.WINDOW_COMMAND, some ⟨.left, .middle⟩, none⟩ := by decide

/-- C4 amended: the lazy capture of the window pattern absorbs trailing words
into the position span instead of failing the match; for
"switch to the left pane please" the captured span is "left pane please",
which resolves via its word "left", so `parse` yields `WINDOW_COMMAND` with
horizontal `left` and vertical `middle`. -/
theorem window_trailing_words_amended :
    reSearch (lowerL (stripL (String.toList "switch to the left pane please")))
      = some (String.toList "left pane please")
    ∧ parsePosition (String.toList "left pane please") = some ⟨.left, .middle⟩
    ∧ (defaultCommandParser.parse "switch to the left pane please").type
        = .WINDOW_COMMAND
    ∧ (defaultCommandParser.parse "switch to the left pane please").position
        = some ⟨.left, .middle⟩ := by
  refine ⟨by decide, by decide, by decide, by decide⟩

/-- C8: position word resolution tokenizes the captured span on whitespace
and looks tokens up in the horizontal and vertical tables; unset axes default
to `center`/`middle`; resolution fails exactly when no token matched either
table; the last match per axis wins; and
`parse "activate the upper left window"` yields a `WINDOW_COMMAND` at
horizontal `left`, vertical `upper`. -/
theorem parse_position_words :
    defaultCommandParser.parse "activate the upper left window"
      = ⟨.WINDOW_COMMAND, some ⟨.left, .upper⟩, none⟩
    ∧ (∀ span, parsePosition span = none ↔
        ∀ w ∈ splitWs span, lookupHorizontal w = none ∧ lookupVertical w = none)
    ∧ (∀ span p, parsePosition span = some p →
        (∀ w ∈ splitWs span, lookupHorizontal w = none) → p.horizontal = .center)
    ∧ (∀ span p, parsePosition span = some p →
        (∀ w ∈ splitWs span, lookupHorizontal w ≠ none ∨ lookupVertical w = none) →
        p.vertical = .middle)
    ∧ parsePosition (String.toList "left right") = some ⟨.right, .middle⟩
    ∧ parsePosition (String.toList "top bottom") = some ⟨.center, .lower⟩ := by
  refine ⟨by decide, ?_, ?_, ?_, by decide, by decide⟩
  · intro span
    unfold parsePosition
    by_cases h : anyPositionWord (splitWs span)
    · simp only [if_pos h]
      constructor
      · intro hc; cases hc
      · intro hall
        exfalso
        rcases List.any_eq_true.mp h with ⟨w, hw, hpw⟩
        rcases hall w hw with ⟨h1, h2⟩
        simp [h1, h2] at hpw
    · simp only [if_neg h]
      constructor
      · intro _ w hw
        constructor
        · cases hh : lookupHorizontal w with
          | none => rfl
          | some hp =>
            exact absurd (List.any_eq_true.mpr ⟨w, hw, by simp [hh]⟩) h
        · cases hv : lookupVertical w with
          | none => rfl
          | some vp =>
            exact absurd (List.any_eq_true.mpr ⟨w, hw, by simp [hv]⟩) h
      · intro _; trivial
  · intro span p hp hH
    unfold parsePosition at hp
    by_cases h : anyPositionWord (splitWs span)
    · rw [if_pos h] at hp
      have := posLoop_fst_of_none hH none none
      cases hp
      simp [this]
    · rw [if_neg h] at hp; cases hp
  · intro span p hp hHV
    unfold parsePosition at hp
    by_cases h : anyPositionWord (splitWs span)
    · rw [if_pos h] at hp
      have := posLoop_snd_of hHV none none
      cases hp
      simp [this]
    · rw [if_neg h] at hp; cases hp

/-- Witness for C8: the span "upper" has no horizontal-table word, so the
resolved position's horizontal axis is the default `center`. -/
theorem parse_position_words_witness :
    parsePosition (String.toList "upper") = some ⟨.center, .upper⟩
    ∧ (∀ w ∈ splitWs (String.toList "upper"), lookupHorizontal w = none)
    ∧ (⟨.center, .upper⟩ : WindowPosition).horizontal = .center :=
  ⟨by decide, by decide,
    parse_position_words.2.2.1 (String.toList "upper") ⟨.center, .upper⟩
      (by decide) (by decide)⟩

/-- C5: `find_session_by_position` resolves by an else-chain: first entry
matching the target on both axes; else, only when the target's vertical is
`middle`, the first entry matching horizontally; else, only when the target's
horizontal is `center`, the first entry matching vertically; else no match.
In particular, target (left, middle) against [(left, upper), (right, upper)]
returns the (left, upper) entry. -/
theorem find_by_position_chain :
    findSessionByPosition
        [⟨10, .left, .upper, 0, 0⟩, ⟨20, .right, .upper, 0, 1⟩] ⟨.left, .middle⟩
      = some 10
    ∧ (∀ (ps : List SessionPosition) (t : WindowPosition) (pos : SessionPosition),
        ps.find? (fun p => p.horizontal == t.horizontal && p.vertical == t.vertical)
          = some pos →
        findSessionByPosition ps t = some pos.session)
    ∧ (∀ (ps : List SessionPosition) (t : WindowPosition) (pos : SessionPosition),
        ps.find? (fun p => p.horizontal == t.horizontal && p.vertical == t.vertical)
          = none →
        t.vertical = .middle →
        ps.find? (fun p => p.horizontal == t.horizontal) = some pos →
        findSessionByPosition ps t = some pos.session)
    ∧ (∀ (ps : List SessionPosition) (t : WindowPosition),
        ps.find? (fun p => p.horizontal == t.horizontal && p.vertical == t.vertical)
          = none →
        t.vertical ≠ .middle → t.horizontal ≠ .center →
        findSessionByPosition ps t = none)
    ∧ (∀ (ps : List SessionPosition) (t : WindowPosition) (pos : SessionPosition),
        ps.find? (fun p => p.horizontal == t.horizontal && p.vertical == t.vertical)
          = none →
        (if t.vertical = .middle then
          ps.find? (fun p => p.horizontal == t.horizontal) else none) = none →
        t.horizontal = .center →
        ps.find? (fun p => p.vertical == t.vertical) = some pos →
        findSessionByPosition ps t = some pos.session) := by
  refine ⟨by decide, ?_, ?_, ?_, ?_⟩
  · intro ps t pos h
    simp [findSessionByPosition, h]
  · intro ps t pos hexact hv hfind
    obtain ⟨th, tv⟩ := t
    simp only at hv
    subst hv
    simp [findSessionByPosition, hexact, hfind]
  · intro ps t hexact hv hh
    simp [findSessionByPosition, hexact, hv, hh]
  · intro ps t pos hexact hmid hh hfind
    obtain ⟨th, tv⟩ := t
    simp only at hh
    subst hh
    simp only at hexact hmid hfind
    simp [findSessionByPosition, hexact, hmid, hfind]

/-- Witness for C5: a fully matching entry is returned by the exact-match
stage of the chain. -/
theorem find_by_position_chain_witness :
    findSessionByPosition [⟨3, .center, .lower, 1, 0⟩] ⟨.center, .lower⟩ = some 3 :=
  find_by_position_chain.2.1 [⟨3, .center, .lower, 1, 0⟩] ⟨.center, .lower⟩
    ⟨3, .center, .lower, 1, 0⟩ (by decide)

/-- C6: `get_active_session` resolves in a fixed order: (1) a focused session
whose id is a registry key is cached and returned, live focus beating any
cache; (2) else the cached session is returned if its id is still a key;
(3) else a sole registered session is cached and returned; (4) else none. -/
theorem get_active_session_order :
    (∀ (st : SessionManagerState) (c : Nat), c ∈ sessionKeys st →
      getActiveSession st (some (some c))
        = (some c, { st with activeSessionId := some c }))
    ∧ (∀ (st : SessionManagerState) (f : Option (Option Nat)) (a : Nat)
        (kv : Nat × ManagedSession),
        focusMiss st f = true → st.activeSessionId = some a →
        st.sessions.find? (fun kv => kv.1 = a) = some kv →
        getActiveSession st f = (some kv.2.session, st))
    ∧ (∀ (st : SessionManagerState) (f : Option (Option Nat))
        (kv : Nat × ManagedSession),
        focusMiss st f = true → cacheMiss st = true → st.sessions = [kv] →
        getActiveSession st f
          = (some kv.2.session, { st with activeSessionId := some kv.2.session }))
    ∧ (∀ (st : SessionManagerState) (f : Option (Option Nat)),
        focusMiss st f = true → cacheMiss st = true → st.sessions.length ≠ 1 →
        getActiveSession st f = (none, st)) := by
  refine ⟨?_, ?_, ?_, ?_⟩
  · intro st c hc
    simp [getActiveSession, hc]
  · intro st f a kv hf ha hkv
    have hcached : gasCached st = (some kv.2.session, st) := by
      simp [gasCached, ha, hkv]
    match f with
    | none => simpa [getActiveSession] using hcached
    | some none => simpa [getActiveSession] using hcached
    | some (some c) =>
      have hc : c ∉ sessionKeys st := by
        simpa [focusMiss] using hf
      simpa [getActiveSession, hc] using hcached
  · intro st f kv hf hm hsing
    have hsingle : gasSingle st
        = (some kv.2.session, { st with activeSessionId := some kv.2.session }) := by
      simp [gasSingle, hsing]
    have hcached : gasCached st
        = (some kv.2.session, { st with activeSessionId := some kv.2.session }) := by
      unfold gasCached
      cases ha : st.activeSessionId with
      | none => simpa [ha] using hsingle
      | some a =>
        have : st.sessions.find? (fun kv => kv.1 = a) = none := by
          have := hm
          simp only [cacheMiss, ha] at this
          exact Option.isNone_iff_eq_none.mp this
        simpa [ha, this] using hsingle
    match f with
    | none => simpa [getActiveSession] using hcached
    | some none => simpa [getActiveSession] using hcached
    | some (some c) =>
      have hc : c ∉ sessionKeys st := by
        simpa [focusMiss] using hf
      simpa [getActiveSession, hc] using hcached
  · intro st f hf hm hlen
    have hsingle : gasSingle st = (none, st) := by
      unfold gasSingle
      match hs : st.sessions with
      | [] => rfl
      | [kv] => exact absurd (by rw [hs]; rfl) hlen
      | kv1 :: kv2 :: rest => rfl
    have hcached : gasCached st = (none, st) := by
      unfold gasCached
      cases ha : st.activeSessionId with
      | none => simpa [ha] using hsingle
      | some a =>
        have : st.sessions.find? (fun kv => kv.1 = a) = none := by
          have := hm
          simp only [cacheMiss, ha] at this
          exact Option.isNone_iff_eq_none.mp this
        simpa [ha, this] using hsingle
    match f with
    | none => simpa [getActiveSession] using hcached
    | some none => simpa [getActiveSession] using hcached
    | some (some c) =>
      have hc : c ∉ sessionKeys st := by
        simpa [focusMiss] using hf
      simpa [getActiveSession, hc] using hcached

/-- Witness for C6: with sessions {1, 2} registered, cached active 1, and
live focus on 2, the focus wins and is cached. -/
theorem get_active_session_order_witness :
    getActiveSession
        ⟨[(1, ⟨1, 10, none, false⟩), (2, ⟨2, 10, none, false⟩)], some 1⟩
        (some (some 2))
      = (some 2, ⟨[(1, ⟨1, 10, none, false⟩), (2, ⟨2, 10, none, false⟩)], some 2⟩) :=
  get_active_session_order.1
    ⟨[(1, ⟨1, 10, none, false⟩), (2, ⟨2, 10, none, false⟩)], some 1⟩ 2 (by decide)

/-- C7: processing `PlainText "foo"`, then `PlainText "bar"`, then
`EndOfInput` with no prefix submits exactly "foo bar" exactly once, and the
buffer is empty afterwards whether the submit succeeded or failed; `PlainText`
appends to a non-empty buffer with a single separating space and otherwise
sets the buffer to the text, never submitting. -/
theorem buffer_accumulate_submit :
    (∀ ok : Bool,
      (handleResult (handleResult (handleResult ⟨"", []⟩ ⟨.TEXT, none, some "foo"⟩ ok)
          ⟨.TEXT, none, some "bar"⟩ ok) ⟨.END_VOICE, none, none⟩ ok).submitted
        = ["foo bar"]
      ∧ (handleResult (handleResult (handleResult ⟨"", []⟩ ⟨.TEXT, none, some "foo"⟩ ok)
          ⟨.TEXT, none, some "bar"⟩ ok) ⟨.END_VOICE, none, none⟩ ok).textBuffer = "")
    ∧ (∀ (st : DaemonState) (t : String) (ok : Bool),
        (handleResult st ⟨.TEXT, none, some t⟩ ok).textBuffer
          = (if st.textBuffer = "" then t else st.textBuffer ++ " " ++ t)
        ∧ (handleResult st ⟨.TEXT, none, some t⟩ ok).submitted = st.submitted) := by
  constructor
  · intro ok; cases ok <;> exact ⟨by decide, by decide⟩
  · intro st t ok
    constructor
    · by_cases h : st.textBuffer = "" <;> simp [handleResult, h]
    · simp [handleResult]

/-! ## Helper lemmas: session registry -/

theorem addLoop_keys_mono :
    ∀ (observed : List Nat) (sessions : List (Nat × ManagedSession))
      (findTab : Nat → Option Nat) {x : Nat},
      x ∈ sessions.map (·.1) → x ∈ (addLoop sessions observed findTab).map (·.1) := by
  intro observed
  induction observed with
  | nil => intro sessions findTab x hx; simpa [addLoop] using hx
  | cons sid rest ih =>
    intro sessions findTab x hx
    simp only [addLoop]
    apply ih
    by_cases hmem : sid ∈ sessions.map (·.1)
    · simpa [hmem] using hx
    · cases hft : findTab sid with
      | some tb => simp [hmem, hft]; left; simpa using hx
      | none => simpa [hmem, hft] using hx

theorem addLoop_consistent :
    ∀ (observed : List Nat) (sessions : List (Nat × ManagedSession))
      (findTab : Nat → Option Nat),
      (∀ kv ∈ sessions, kv.2.session = kv.1) →
      ∀ kv ∈ addLoop sessions observed findTab, kv.2.session = kv.1 := by
  intro observed
  induction observed with
  | nil => intro sessions findTab h kv hkv; exact h kv (by simpa [addLoop] using hkv)
  | cons sid rest ih =>
    intro sessions findTab h kv hkv
    simp only [addLoop] at hkv
    refine ih _ findTab ?_ kv hkv
    intro kv' hkv'
    by_cases hmem : sid ∈ sessions.map (·.1)
    · exact h kv' (by simpa [hmem] using hkv')
    · cases hft : findTab sid with
      | some tb =>
        have h2 : kv' ∈ sessions
            ∨ kv' = (sid, (⟨sid, tb, none, false⟩ : ManagedSession)) := by
          simpa [hmem, hft] using hkv'
        rcases h2 with hin | rfl
        · exact h kv' hin
        · rfl
      | none => exact h kv' (by simpa [hmem, hft] using hkv')

theorem updatePosition_fst (p : Nat → List SessionPosition) (kv : Nat × ManagedSession) :
    (updatePosition p kv).1 = kv.1 := by
  unfold updatePosition
  cases ((p kv.2.tab).reverse).find? (fun q => q.session = kv.2.session) <;> rfl

theorem updatePosition_session (p : Nat → List SessionPosition)
    (kv : Nat × ManagedSession) : (updatePosition p kv).2.session = kv.2.session := by
  unfold updatePosition
  cases ((p kv.2.tab).reverse).find? (fun q => q.session = kv.2.session) <;> rfl

theorem keys_map_updatePosition (p : Nat → List SessionPosition)
    (l : List (Nat × ManagedSession)) :
    (l.map (updatePosition p)).map (·.1) = l.map (·.1) := by
  induction l with
  | nil => rfl
  | cons kv l ih => simp [updatePosition_fst, ih]

theorem regInvariant_refresh (st : SessionManagerState) (c : Bool)
    (obs : List Nat) (ft : Nat → Option Nat) (pt : Nat → List SessionPosition)
    (hInv : regInvariant st = true) :
    regInvariant (refreshSessions st c obs ft pt) = true := by
  cases c with
  | false => simpa [refreshSessions] using hInv
  | true =>
    simp only [refreshSessions, Bool.not_true, Bool.false_eq_true, if_false]
    cases ha : st.activeSessionId with
    | none => simp [regInvariant]
    | some a =>
      by_cases hcond : a ∈ (addLoop st.sessions obs ft).map (·.1) ∧ a ∉ obs
      · simp [regInvariant, hcond]
      · simp only [hcond, if_false]
        have hkey : a ∈ sessionKeys st := by
          simpa [regInvariant, ha] using hInv
        have h1 : a ∈ (addLoop st.sessions obs ft).map (·.1) :=
          addLoop_keys_mono obs st.sessions ft hkey
        have hobs : a ∈ obs := by
          by_contra hno
          exact hcond ⟨h1, hno⟩
        rcases List.mem_map.mp h1 with ⟨kv, hkv, hfst⟩
        have hkv2 : kv ∈ (addLoop st.sessions obs ft).filter (fun kv => kv.1 ∈ obs) :=
          List.mem_filter.mpr ⟨hkv, by simp [hfst, hobs]⟩
        simp only [regInvariant, sessionKeys, keys_map_updatePosition]
        simp only [decide_eq_true_eq]
        exact List.mem_map.mpr ⟨kv, hkv2, hfst⟩

theorem keysConsistent_refresh (st : SessionManagerState) (c : Bool)
    (obs : List Nat) (ft : Nat → Option Nat) (pt : Nat → List SessionPosition)
    (hc : keysConsistent st = true) :
    keysConsistent (refreshSessions st c obs ft pt) = true := by
  cases c with
  | false => simpa [refreshSessions] using hc
  | true =>
    simp only [refreshSessions, Bool.not_true, Bool.false_eq_true, if_false]
    simp only [keysConsistent, List.all_eq_true] at hc ⊢
    intro kv hkv
    rcases List.mem_map.mp hkv with ⟨kv', hkv', rfl⟩
    have hmem : kv' ∈ addLoop st.sessions obs ft := (List.mem_filter.mp hkv').1
    have hsess : kv'.2.session = kv'.1 := by
      have := addLoop_consistent obs st.sessions ft
        (fun kv h => by simpa using hc kv h) kv' hmem
      exact this
    simp [updatePosition_fst, updatePosition_session, hsess]

theorem sessions_getActive (st : SessionManagerState) (f : Option (Option Nat)) :
    (getActiveSession st f).2.sessions = st.sessions := by
  obtain ⟨sess, act⟩ := st
  have hsingle : (gasSingle ⟨sess, act⟩).2.sessions = sess := by
    unfold gasSingle
    match sess with
    | [] => rfl
    | [kv] => rfl
    | kv1 :: kv2 :: rest => rfl
  have hcached : (gasCached ⟨sess, act⟩).2.sessions = sess := by
    unfold gasCached
    match act with
    | none => exact hsingle
    | some a =>
      cases hf : List.find? (fun kv => kv.1 = a) sess with
      | some kv => simp [hf]
      | none => simp only [hf]; exact hsingle
  unfold getActiveSession
  match f with
  | none => exact hcached
  | some none => exact hcached
  | some (some c) =>
    by_cases hc : c ∈ sessionKeys ⟨sess, act⟩
    · simp [hc]
    · simp only [if_neg hc]; exact hcached

theorem getActive_fst_in_keys (st : SessionManagerState) (f : Option (Option Nat))
    (hc : keysConsistent st = true) :
    (getActiveSession st f).1 = none
    ∨ ∃ b, (getActiveSession st f).1 = some b ∧ b ∈ sessionKeys st := by
  obtain ⟨sess, act⟩ := st
  have hconsist : ∀ kv ∈ sess, kv.2.session = kv.1 := by
    intro kv hkv
    simpa using (List.all_eq_true.mp hc) kv hkv
  have hsingle : (gasSingle ⟨sess, act⟩).1 = none
      ∨ ∃ b, (gasSingle ⟨sess, act⟩).1 = some b ∧ b ∈ sess.map (·.1) := by
    unfold gasSingle
    match sess, hconsist with
    | [], _ => exact Or.inl rfl
    | [kv], hcons =>
      refine Or.inr ⟨kv.2.session, rfl, ?_⟩
      rw [hcons kv (by simp)]
      simp
    | kv1 :: kv2 :: rest, _ => exact Or.inl rfl
  have hcached : (gasCached ⟨sess, act⟩).1 = none
      ∨ ∃ b, (gasCached ⟨sess, act⟩).1 = some b ∧ b ∈ sess.map (·.1) := by
    unfold gasCached
    match act with
    | none => exact hsingle
    | some a =>
      cases hf : List.find? (fun kv => kv.1 = a) sess with
      | some kv =>
        have hmem : kv ∈ sess := List.mem_of_find?_eq_some hf
        simp only [hf]
        refine Or.inr ⟨kv.2.session, rfl, ?_⟩
        rw [hconsist kv hmem]
        exact List.mem_map.mpr ⟨kv, hmem, rfl⟩
      | none => simp only [hf]; exact hsingle
  unfold getActiveSession
  match f with
  | none => exact hcached
  | some none => exact hcached
  | some (some c) =>
    by_cases hck : c ∈ sessionKeys ⟨sess, act⟩
    · exact Or.inr ⟨c, by simp [hck], hck⟩
    · simp only [if_neg hck]; exact hcached

theorem refresh_clears (st : SessionManagerState) (obs : List Nat)
    (ft : Nat → Option Nat) (pt : Nat → List SessionPosition) (a : Nat)
    (hInv : regInvariant st = true) (ha : st.activeSessionId = some a)
    (hobs : a ∉ obs) :
    a ∉ sessionKeys (refreshSessions st true obs ft pt)
    ∧ (refreshSessions st true obs ft pt).activeSessionId = none := by
  have hkey : a ∈ sessionKeys st := by simpa [regInvariant, ha] using hInv
  have h1 : a ∈ (addLoop st.sessions obs ft).map (·.1) :=
    addLoop_keys_mono obs st.sessions ft hkey
  constructor
  · simp only [refreshSessions, Bool.not_true, Bool.false_eq_true, if_false,
      sessionKeys, keys_map_updatePosition]
    intro hmem
    rcases List.mem_map.mp hmem with ⟨kv, hkv, hfst⟩
    have := (List.mem_filter.mp hkv).2
    rw [hfst] at this
    exact hobs (by simpa using this)
  · simp [refreshSessions, ha, h1, hobs]

theorem regInvariant_getActive (st : SessionManagerState) (f : Option (Option Nat))
    (hInv : regInvariant st = true) (hc : keysConsistent st = true) :
    regInvariant (getActiveSession st f).2 = true := by
  obtain ⟨sess, act⟩ := st
  have hconsist : ∀ kv ∈ sess, kv.2.session = kv.1 := by
    intro kv hkv; simpa using (List.all_eq_true.mp hc) kv hkv
  have hsingle : ∀ a' : Option Nat,
      regInvariant (⟨sess, a'⟩ : SessionManagerState) = true →
      regInvariant (gasSingle ⟨sess, a'⟩).2 = true := by
    intro a' hInv'
    unfold gasSingle
    match sess, hconsist, hInv' with
    | [], _, h' => exact h'
    | [kv], hcons, _ =>
      simp only [regInvariant, sessionKeys]
      rw [hcons kv (by simp)]
      simp
    | kv1 :: kv2 :: rest, _, h' => exact h'
  have hcached : regInvariant (gasCached ⟨sess, act⟩).2 = true := by
    unfold gasCached
    match act, hInv with
    | none, h' => exact hsingle none h'
    | some a, h' =>
      cases hf : List.find? (fun kv => kv.1 = a) sess with
      | some kv => simp only [hf]; exact h'
      | none =>
        exfalso
        have hkey : a ∈ sess.map (·.1) := by
          simpa [regInvariant, sessionKeys] using h'
        rcases List.mem_map.mp hkey with ⟨kv, hkv, hfst⟩
        have := List.find?_eq_none.mp hf kv hkv
        simp [hfst] at this
  unfold getActiveSession
  match f with
  | none => exact hcached
  | some none => exact hcached
  | some (some c) =>
    by_cases hck : c ∈ sessionKeys ⟨sess, act⟩
    · simp only [if_pos hck, regInvariant]
      simpa [sessionKeys] using hck
    · simp only [if_neg hck]; exact hcached

theorem keys_setActive (st : SessionManagerState) (sid : Nat) :
    sessionKeys (setActiveSession st sid) = sessionKeys st := by
  simp only [setActiveSession, sessionKeys, List.map_map]
  rfl

/-- C2 counterexample: with only session 2 registered and the invariant
holding, `set_active_session` called with the unregistered session 7 caches
id 7, which is not a key of the mapping — the invariant is broken by a
registry operation. -/
theorem registry_invariant_cex :
    regInvariant ⟨[(2, ⟨2, 0, none, false⟩)], some 2⟩ = true
    ∧ (setActiveSession ⟨[(2, ⟨2, 0, none, false⟩)], some 2⟩ 7).activeSessionId
        = some 7
    ∧ regInvariant (setActiveSession ⟨[(2, ⟨2, 0, none, false⟩)], some 2⟩ 7)
        = false := by
  refine ⟨by decide, by decide, by decide⟩

/-- C2 amended: provided every registry entry is stored under its own
session id (which refresh, get-active and set-active all preserve), `refresh`
and `get_active_session` preserve the invariant that the active-id cache, if
set, names a current key; `set_active_session` guarantees it only when the
given session id is already a key (the cache is set unconditionally); and
when a connected refresh no longer observes the cached-active session, that
session is removed, the cache is cleared, and `get_active_session` can no
longer return it under any focus input. -/
theorem registry_invariant_amended :
    (∀ (st : SessionManagerState) (c : Bool) (obs : List Nat)
        (ft : Nat → Option Nat) (pt : Nat → List SessionPosition),
        regInvariant st = true →
        regInvariant (refreshSessions st c obs ft pt) = true)
    ∧ (∀ (st : SessionManagerState) (f : Option (Option Nat)),
        regInvariant st = true → keysConsistent st = true →
        regInvariant (getActiveSession st f).2 = true)
    ∧ (∀ (st : SessionManagerState) (sid : Nat), sid ∈ sessionKeys st →
        regInvariant (setActiveSession st sid) = true)
    ∧ (∀ (st : SessionManagerState) (c : Bool) (obs : List Nat)
        (ft : Nat → Option Nat) (pt : Nat → List SessionPosition),
        keysConsistent st = true →
        keysConsistent (refreshSessions st c obs ft pt) = true)
    ∧ (∀ (st : SessionManagerState) (sid : Nat), keysConsistent st = true →
        keysConsistent (setActiveSession st sid) = true)
    ∧ (∀ (st : SessionManagerState) (f : Option (Option Nat)),
        keysConsistent st = true →
        keysConsistent (getActiveSession st f).2 = true)
    ∧ (∀ (st : SessionManagerState) (obs : List Nat) (ft : Nat → Option Nat)
        (pt : Nat → List SessionPosition) (a : Nat),
        regInvariant st = true → st.activeSessionId = some a → a ∉ obs →
        a ∉ sessionKeys (refreshSessions st true obs ft pt)
        ∧ (refreshSessions st true obs ft pt).activeSessionId = none)
    ∧ (∀ (st : SessionManagerState) (obs : List Nat) (ft : Nat → Option Nat)
        (pt : Nat → List SessionPosition) (a : Nat) (f : Option (Option Nat)),
        regInvariant st = true → keysConsistent st = true →
        st.activeSessionId = some a → a ∉ obs →
        (getActiveSession (refreshSessions st true obs ft pt) f).1 ≠ some a) := by
  refine ⟨regInvariant_refresh, regInvariant_getActive, ?_,
    keysConsistent_refresh, ?_, ?_, refresh_clears, ?_⟩
  · intro st sid hsid
    simp only [regInvariant, setActiveSession]
    have : sessionKeys (setActiveSession st sid) = sessionKeys st :=
      keys_setActive st sid
    simp only [setActiveSession] at this
    simp only [sessionKeys] at this ⊢
    simp only [this]
    simpa [sessionKeys] using hsid
  · intro st sid hc
    simp only [keysConsistent, setActiveSession, List.all_eq_true] at hc ⊢
    intro kv hkv
    rcases List.mem_map.mp hkv with ⟨kv', hkv', rfl⟩
    simpa using hc kv' hkv'
  · intro st f hc
    unfold keysConsistent
    rw [sessions_getActive]
    exact hc
  · intro st obs ft pt a f hInv hc ha hobs
    have hclr := refresh_clears st obs ft pt a hInv ha hobs
    have hc' := keysConsistent_refresh st true obs ft pt hc
    rcases getActive_fst_in_keys (refreshSessions st true obs ft pt) f hc' with
      hnone | ⟨b, hb, hbk⟩
    · simp [hnone]
    · rw [hb]
      intro heq
      injection heq with heq'
      subst heq'
      exact hclr.1 hbk

/-- Witness for C2 (amended): setting an id that is a registry key preserves
the invariant. -/
theorem registry_invariant_amended_witness :
    (2 ∈ sessionKeys ⟨[(2, ⟨2, 0, none, false⟩)], none⟩)
    ∧ regInvariant (setActiveSession ⟨[(2, ⟨2, 0, none, false⟩)], none⟩ 2) = true :=
  ⟨by decide, registry_invariant_amended.2.2.1 ⟨[(2, ⟨2, 0, none, false⟩)], none⟩ 2
    (by decide)⟩

/-! ## Helper lemmas: grids and merging -/

theorem mem_hRowCell {r : Nat} {g : Grid} {x : Nat} :
    some x ∈ hRowCell r g ↔ ∃ row, g[r]? = some row ∧ some x ∈ row := by
  unfold hRowCell
  cases h : g[r]? with
  | some row => simp [h]
  | none => simp [h, List.mem_replicate]

theorem mem_hRow {grids : List Grid} {r : Nat} {x : Nat} :
    some x ∈ hRow grids r ↔ ∃ g ∈ grids, some x ∈ hRowCell r g := by
  induction grids with
  | nil => simp [hRow]
  | cons g gs ih =>
    have hsplit : hRow (g :: gs) r = hRowCell r g ++ hRow gs r := rfl
    rw [hsplit, List.mem_append, ih]
    simp

theorem length_le_maxRows {g : Grid} {grids : List Grid} (h : g ∈ grids) :
    g.length ≤ maxRows grids := by
  induction grids with
  | nil => cases h
  | cons g' gs ih =>
    have hm : maxRows (g' :: gs) = max g'.length (maxRows gs) := rfl
    rw [hm]
    rcases List.mem_cons.mp h with rfl | hmem
    · exact Nat.le_max_left _ _
    · exact le_trans (ih hmem) (Nat.le_max_right _ _)

theorem gridMem_mergeHorizontal {grids : List Grid} {x : Nat} :
    gridMem (mergeHorizontal grids) x ↔ ∃ g ∈ grids, gridMem g x := by
  unfold mergeHorizontal gridMem
  cases grids with
  | nil => simp
  | cons g0 gs =>
    simp only [List.isEmpty_cons, if_false, Bool.false_eq_true]
    constructor
    · rintro ⟨row, hrow, hx⟩
      rcases List.mem_map.mp hrow with ⟨r, _, rfl⟩
      rcases mem_hRow.mp hx with ⟨g, hg, hcell⟩
      rcases mem_hRowCell.mp hcell with ⟨row', hrow', hx'⟩
      rcases List.getElem?_eq_some.mp hrow' with ⟨hlt, heq⟩
      exact ⟨g, hg, row', heq ▸ List.getElem_mem hlt, hx'⟩
    · rintro ⟨g, hg, row, hrow, hx⟩
      rcases List.mem_iff_getElem?.mp hrow with ⟨r, hr⟩
      have hrlen : r < g.length := (List.getElem?_eq_some.mp hr).1
      have hrmax : r < maxRows (g0 :: gs) := lt_of_lt_of_le hrlen (length_le_maxRows hg)
      refine ⟨hRow (g0 :: gs) r, List.mem_map.mpr ⟨r, List.mem_range.mpr hrmax, rfl⟩, ?_⟩
      exact mem_hRow.mpr ⟨g, hg, mem_hRowCell.mpr ⟨row, hr, hx⟩⟩

theorem mem_padRow {n : Nat} {row : List (Option Nat)} {x : Nat} :
    some x ∈ padRow n row ↔ some x ∈ row := by
  simp [padRow, List.mem_replicate]

theorem mem_vfold {n : Nat} {grids : List Grid} {row : List (Option Nat)} :
    row ∈ grids.foldr (fun g acc => g.map (padRow n) ++ acc) []
      ↔ ∃ g ∈ grids, ∃ row0 ∈ g, row = padRow n row0 := by
  induction grids with
  | nil => simp
  | cons g gs ih =>
    have hsplit : (g :: gs).foldr (fun g acc => g.map (padRow n) ++ acc) []
        = g.map (padRow n) ++ gs.foldr (fun g acc => g.map (padRow n) ++ acc) [] := rfl
    rw [hsplit, List.mem_append, ih]
    constructor
    · rintro (hmap | ⟨g', hg', row0, hrow0, rfl⟩)
      · rcases List.mem_map.mp hmap with ⟨row0, hrow0, rfl⟩
        exact ⟨g, List.mem_cons_self g gs, row0, hrow0, rfl⟩
      · exact ⟨g', List.mem_cons_of_mem g hg', row0, hrow0, rfl⟩
    · rintro ⟨g', hg', row0, hrow0, rfl⟩
      rcases List.mem_cons.mp hg' with rfl | hmem
      · exact Or.inl (List.mem_map.mpr ⟨row0, hrow0, rfl⟩)
      · exact Or.inr ⟨g', hmem, row0, hrow0, rfl⟩

theorem gridMem_mergeVertical {grids : List Grid} {x : Nat} :
    gridMem (mergeVertical grids) x ↔ ∃ g ∈ grids, gridMem g x := by
  unfold mergeVertical gridMem
  cases grids with
  | nil => simp
  | cons g0 gs =>
    simp only [List.isEmpty_cons, if_false, Bool.false_eq_true]
    constructor
    · rintro ⟨row, hrow, hx⟩
      rcases mem_vfold.mp hrow with ⟨g, hg, row0, hrow0, rfl⟩
      exact ⟨g, hg, row0, hrow0, mem_padRow.mp hx⟩
    · rintro ⟨g, hg, row, hrow, hx⟩
      exact ⟨padRow (maxCols (g0 :: gs)) row,
        mem_vfold.mpr ⟨g, hg, row, hrow, rfl⟩, mem_padRow.mpr hx⟩

theorem gridsOf_eq : ∀ cs : List SplitTree, gridsOf cs = cs.map buildGrid := by
  intro cs
  induction cs with
  | nil => rfl
  | cons t ts ih => simp [gridsOf, ih]

theorem mem_leafIdsList {cs : List SplitTree} {x : Nat} :
    x ∈ leafIdsList cs ↔ ∃ t ∈ cs, x ∈ leafIds t := by
  induction cs with
  | nil => simp [leafIdsList]
  | cons t ts ih =>
    have hsplit : leafIdsList (t :: ts) = leafIds t ++ leafIdsList ts := rfl
    rw [hsplit, List.mem_append, ih]
    simp

theorem gridMem_buildGrid : ∀ t : SplitTree, ∀ x, gridMem (buildGrid t) x ↔ x ∈ leafIds t := by
  apply SplitTree.strongInd
  · intro sid x
    simp [buildGrid, leafIds, gridMem]
  · intro v cs ih x
    have hmap : (∃ g ∈ gridsOf cs, gridMem g x) ↔ x ∈ leafIdsList cs := by
      rw [gridsOf_eq]
      constructor
      · rintro ⟨g, hg, hm⟩
        rcases List.mem_map.mp hg with ⟨t, ht, rfl⟩
        exact mem_leafIdsList.mpr ⟨t, ht, (ih t ht x).mp hm⟩
      · intro hx
        rcases mem_leafIdsList.mp hx with ⟨t, ht, hm⟩
        exact ⟨buildGrid t, List.mem_map.mpr ⟨t, ht, rfl⟩, (ih t ht x).mpr hm⟩
    cases v with
    | false =>
      have hb : buildGrid (.splitter false cs) = mergeVertical (gridsOf cs) := rfl
      have hl : leafIds (.splitter false cs) = leafIdsList cs := rfl
      rw [hb, hl, gridMem_mergeVertical, hmap]
    | true =>
      have hb : buildGrid (.splitter true cs) = mergeHorizontal (gridsOf cs) := rfl
      have hl : leafIds (.splitter true cs) = leafIdsList cs := rfl
      rw [hb, hl, gridMem_mergeHorizontal, hmap]

/-! ## Helper lemmas: rectangularity -/

theorem rect_nil : Rect ([] : Grid) := by
  intro row h
  cases h

theorem rect_of_rows_length {g : Grid} (L : Nat) (h : ∀ row ∈ g, row.length = L) :
    Rect g := by
  intro row hrow
  rw [h row hrow]
  cases g with
  | nil => cases hrow
  | cons r0 rest =>
    have h0 := h r0 (List.mem_cons_self r0 rest)
    simp [gridWidth, h0]

theorem length_hRowCell {g : Grid} (hg : Rect g) (r : Nat) :
    (hRowCell r g).length = padWidth g := by
  unfold hRowCell
  cases h : g[r]? with
  | some row =>
    rcases List.getElem?_eq_some.mp h with ⟨hlt, heq⟩
    have hrow : row ∈ g := heq ▸ List.getElem_mem hlt
    rw [hg row hrow]
    cases g with
    | nil => simp at h
    | cons r0 rest => rfl
  | none => simp

theorem length_hRow {grids : List Grid} (h : ∀ g ∈ grids, Rect g) (r : Nat) :
    (hRow grids r).length = (grids.map padWidth).sum := by
  induction grids with
  | nil => rfl
  | cons g gs ih =>
    have hsplit : hRow (g :: gs) r = hRowCell r g ++ hRow gs r := rfl
    rw [hsplit, List.length_append, length_hRowCell (h g (List.mem_cons_self g gs)) r,
      ih (fun g' hg' => h g' (List.mem_cons_of_mem g hg'))]
    simp

theorem rect_mergeHorizontal {grids : List Grid} (h : ∀ g ∈ grids, Rect g) :
    Rect (mergeHorizontal grids) := by
  unfold mergeHorizontal
  cases grids with
  | nil => exact rect_nil
  | cons g0 gs =>
    simp only [List.isEmpty_cons, if_false, Bool.false_eq_true]
    apply rect_of_rows_length ((List.map padWidth (g0 :: gs)).sum)
    intro row hrow
    rcases List.mem_map.mp hrow with ⟨r, _, rfl⟩
    exact length_hRow h r

theorem padWidth_le_maxCols {g : Grid} {grids : List Grid} (h : g ∈ grids) :
    padWidth g ≤ maxCols grids := by
  induction grids with
  | nil => cases h
  | cons g' gs ih =>
    have hm : maxCols (g' :: gs) = max (padWidth g') (maxCols gs) := rfl
    rw [hm]
    rcases List.mem_cons.mp h with rfl | hmem
    · exact Nat.le_max_left _ _
    · exact le_trans (ih hmem) (Nat.le_max_right _ _)

theorem length_padRow_of_le {n : Nat} {row : List (Option Nat)}
    (h : row.length ≤ n) : (padRow n row).length = n := by
  simp [padRow]
  omega

theorem rect_mergeVertical {grids : List Grid} (h : ∀ g ∈ grids, Rect g) :
    Rect (mergeVertical grids) := by
  unfold mergeVertical
  cases grids with
  | nil => exact rect_nil
  | cons g0 gs =>
    simp only [List.isEmpty_cons, if_false, Bool.false_eq_true]
    apply rect_of_rows_length (maxCols (g0 :: gs))
    intro row hrow
    rcases mem_vfold.mp hrow with ⟨g, hg, row0, hrow0, rfl⟩
    apply length_padRow_of_le
    have h1 : row0.length = gridWidth g := h g hg row0 hrow0
    have h2 : gridWidth g = padWidth g := by
      cases g with
      | nil => cases hrow0
      | cons r0 rest => rfl
    rw [h1, h2]
    exact padWidth_le_maxCols hg

theorem rect_buildGrid : ∀ t : SplitTree, Rect (buildGrid t) := by
  apply SplitTree.strongInd
  · intro sid
    apply rect_of_rows_length 1
    intro row hrow
    have : row = [some sid] := by simpa [buildGrid] using hrow
    simp [this]
  · intro v cs ih
    have hall : ∀ g ∈ gridsOf cs, Rect g := by
      rw [gridsOf_eq]
      intro g hg
      rcases List.mem_map.mp hg with ⟨t, ht, rfl⟩
      exact ih t ht
    cases v with
    | false => exact rect_mergeVertical hall
    | true => exact rect_mergeHorizontal hall

theorem posIds_nil : posIds [] = [] := rfl

theorem posIds_cons (p : SessionPosition) (l : List SessionPosition) :
    posIds (p :: l) = p.session :: posIds l := rfl

theorem posIds_append (l1 l2 : List SessionPosition) :
    posIds (l1 ++ l2) = posIds l1 ++ posIds l2 := by
  simp [posIds]

theorem gtpRow_spec (nr nc r : Nat) :
    ∀ (row : List (Option Nat)) (c : Nat) (seen : List Nat),
      (∀ x, x ∈ (gtpRow nr nc r c row seen).2 ↔ x ∈ seen ∨ some x ∈ row)
      ∧ (∀ x, x ∈ posIds (gtpRow nr nc r c row seen).1 ↔ (some x ∈ row ∧ x ∉ seen))
      ∧ (posIds (gtpRow nr nc r c row seen).1).Nodup := by
  intro row
  induction row with
  | nil =>
    intro c seen
    exact ⟨fun x => by simp [gtpRow], fun x => by simp [gtpRow, posIds],
      by simp [gtpRow, posIds]⟩
  | cons cell rest ih =>
    intro c seen
    cases cell with
    | none =>
      have hr : gtpRow nr nc r c (none :: rest) seen
          = gtpRow nr nc r (c + 1) rest seen := rfl
      rcases ih (c + 1) seen with ⟨h1, h2, h3⟩
      refine ⟨fun x => ?_, fun x => ?_, ?_⟩
      · rw [hr, h1 x]; simp
      · rw [hr, h2 x]; simp
      · rw [hr]; exact h3
    | some sid =>
      by_cases hmem : sid ∈ seen
      · have hr : gtpRow nr nc r c (some sid :: rest) seen
            = gtpRow nr nc r (c + 1) rest seen := by
          simp [gtpRow, hmem]
        rcases ih (c + 1) seen with ⟨h1, h2, h3⟩
        refine ⟨fun x => ?_, fun x => ?_, ?_⟩
        · rw [hr, h1 x]
          simp only [List.mem_cons, Option.some.injEq]
          constructor
          · rintro (hx | hx)
            · exact Or.inl hx
            · exact Or.inr (Or.inr hx)
          · rintro (hx | rfl | hx)
            · exact Or.inl hx
            · exact Or.inl hmem
            · exact Or.inr hx
        · rw [hr, h2 x]
          simp only [List.mem_cons, Option.some.injEq]
          constructor
          · rintro ⟨hx, hn⟩
            exact ⟨Or.inr hx, hn⟩
          · rintro ⟨rfl | hx, hn⟩
            · exact absurd hmem hn
            · exact ⟨hx, hn⟩
        · rw [hr]; exact h3
      · have hr : gtpRow nr nc r c (some sid :: rest) seen
            = (⟨sid, classifyH nc c, classifyV nr r, r, c⟩ ::
                (gtpRow nr nc r (c + 1) rest (sid :: seen)).1,
              (gtpRow nr nc r (c + 1) rest (sid :: seen)).2) := by
          simp [gtpRow, hmem]
        rcases ih (c + 1) (sid :: seen) with ⟨h1, h2, h3⟩
        refine ⟨fun x => ?_, fun x => ?_, ?_⟩
        · rw [hr]
          dsimp only
          rw [h1 x]
          simp only [List.mem_cons, Option.some.injEq]
          tauto
        · rw [hr]
          dsimp only
          rw [posIds_cons]
          dsimp only
          rw [List.mem_cons, h2 x]
          simp only [List.mem_cons, Option.some.injEq]
          constructor
          · rintro (rfl | ⟨hx, hn⟩)
            · exact ⟨Or.inl rfl, hmem⟩
            · exact ⟨Or.inr hx, fun hseen => hn (Or.inr hseen)⟩
          · rintro ⟨hx | hx, hn⟩
            · exact Or.inl hx
            · by_cases heq : x = sid
              · exact Or.inl heq
              · exact Or.inr ⟨hx, fun hc => hc.elim heq hn⟩
        · rw [hr]
          dsimp only
          rw [posIds_cons]
          dsimp only
          refine List.nodup_cons.mpr ⟨?_, h3⟩
          intro hc
          rcases (h2 sid).mp hc with ⟨_, hn⟩
          exact hn (List.mem_cons_self sid seen)

theorem gtpRows_spec (nr nc : Nat) :
    ∀ (rows : List (List (Option Nat))) (r : Nat) (seen : List Nat),
      (∀ x, x ∈ posIds (gtpRows nr nc r rows seen) ↔
        ((∃ row ∈ rows, some x ∈ row) ∧ x ∉ seen))
      ∧ (posIds (gtpRows nr nc r rows seen)).Nodup := by
  intro rows
  induction rows with
  | nil =>
    intro r seen
    exact ⟨fun x => by simp [gtpRows, posIds], by simp [gtpRows, posIds]⟩
  | cons row rest ih =>
    intro r seen
    have hr : gtpRows nr nc r (row :: rest) seen
        = (gtpRow nr nc r 0 row seen).1
          ++ gtpRows nr nc (r + 1) rest (gtpRow nr nc r 0 row seen).2 := rfl
    rcases gtpRow_spec nr nc r row 0 seen with ⟨hs1, hs2, hs3⟩
    rcases ih (r + 1) ((gtpRow nr nc r 0 row seen).2) with ⟨hr1, hr2⟩
    constructor
    · intro x
      have hr1x := hr1 x
      rw [hs1 x] at hr1x
      rw [hr, posIds_append, List.mem_append, hs2 x, hr1x]
      constructor
      · rintro (⟨ha, hc⟩ | ⟨⟨row', hrow', ha⟩, hc⟩)
        · exact ⟨⟨row, List.mem_cons_self row rest, ha⟩, hc⟩
        · exact ⟨⟨row', List.mem_cons_of_mem row hrow', ha⟩,
            fun hcc => hc (Or.inl hcc)⟩
      · rintro ⟨⟨row', hrow', ha⟩, hc⟩
        rcases List.mem_cons.mp hrow' with rfl | hmem
        · exact Or.inl ⟨ha, hc⟩
        · by_cases hrowmem : some x ∈ row
          · exact Or.inl ⟨hrowmem, hc⟩
          · exact Or.inr ⟨⟨row', hmem, ha⟩, fun hcc => hcc.elim hc hrowmem⟩
    · rw [hr, posIds_append]
      refine List.nodup_append.mpr ⟨hs3, hr2, ?_⟩
      intro x hx1 hx2
      rcases (hs2 x).mp hx1 with ⟨hrow, _⟩
      rcases (hr1 x).mp hx2 with ⟨_, hn2⟩
      exact hn2 ((hs1 x).mpr (Or.inr hrow))

theorem gridToPositions_spec {g : Grid} (hg : Rect g) :
    (∀ x, x ∈ posIds (gridToPositions g) ↔ gridMem g x)
    ∧ (posIds (gridToPositions g)).Nodup := by
  cases g with
  | nil =>
    exact ⟨fun x => by simp [gridToPositions, posIds, gridMem],
      by simp [gridToPositions, posIds]⟩
  | cons firstRow rest =>
    by_cases hemp : firstRow.isEmpty
    · have hfr : firstRow = [] := by
        cases firstRow with
        | nil => rfl
        | cons a l => simp [List.isEmpty_cons] at hemp
      have hallnil : ∀ row ∈ (firstRow :: rest : Grid), row = [] := by
        intro row hrow
        have h1 := hg row hrow
        rw [hfr] at h1
        simp [gridWidth] at h1
        exact h1
      constructor
      · intro x
        simp only [gridToPositions, hemp, if_true]
        constructor
        · intro hx; simp [posIds] at hx
        · rintro ⟨row, hrow, hx⟩
          rw [hallnil row hrow] at hx
          cases hx
      · simp [gridToPositions, hemp, posIds]
    · have hr : gridToPositions (firstRow :: rest)
          = gtpRows (firstRow :: rest).length firstRow.length 0 (firstRow :: rest) [] := by
        simp [gridToPositions, hemp]
      rcases gtpRows_spec (firstRow :: rest).length firstRow.length
        (firstRow :: rest) 0 [] with ⟨h1, h2⟩
      constructor
      · intro x
        rw [hr, h1 x]
        simp [gridMem]
      · rw [hr]; exact h2

/-- C1: for every split tree, `compute_positions` returns exactly one
`SessionPosition` per distinct leaf session: the returned session ids are
duplicate-free and form exactly the set of leaf session ids of the tree (no
duplicates, no omissions). -/
theorem computePositions_one_per_leaf (t : SplitTree) :
    (posIds (computePositions t)).Nodup
    ∧ ∀ x, x ∈ posIds (computePositions t) ↔ x ∈ leafIds t := by
  cases t with
  | session sid =>
    exact ⟨by simp [computePositions, posIds],
      fun x => by simp [computePositions, posIds, leafIds]⟩
  | splitter v cs =>
    have hrec : Rect (buildGrid (.splitter v cs)) := rect_buildGrid _
    have hcp : computePositions (.splitter v cs)
        = gridToPositions (buildGrid (.splitter v cs)) := rfl
    rcases gridToPositions_spec hrec with ⟨h1, h2⟩
    refine ⟨by rw [hcp]; exact h2, fun x => ?_⟩
    rw [hcp, h1 x, gridMem_buildGrid]

/-- C10: every grid `_build_grid` produces is rectangular, and the two merge
operations preserve rectangularity, so `_grid_to_positions` (which takes the
first row's length as the column count) classifies every occupied cell
against the true grid width. -/
theorem grids_rectangular :
    (∀ t : SplitTree, Rect (buildGrid t))
    ∧ (∀ grids : List Grid, (∀ g ∈ grids, Rect g) →
        Rect (mergeHorizontal grids) ∧ Rect (mergeVertical grids)) :=
  ⟨rect_buildGrid, fun _ h => ⟨rect_mergeHorizontal h, rect_mergeVertical h⟩⟩

/-- Witness for C10: two concrete rectangular grids merge into rectangular
grids both horizontally and vertically. -/
theorem grids_rectangular_witness :
    (∀ g ∈ [[[some 1]], [[some 2], [some 3]]], Rect g)
    ∧ Rect (mergeHorizontal [[[some 1]], [[some 2], [some 3]]])
    ∧ Rect (mergeVertical [[[some 1]], [[some 2], [some 3]]]) :=
  ⟨by decide, (grids_rectangular.2 [[[some 1]], [[some 2], [some 3]]] (by decide)).1,
    (grids_rectangular.2 [[[some 1]], [[some 2], [some 3]]] (by decide)).2⟩

/-- C9 counterexample: a zero-children split merged horizontally next to a
leaf session does shift that sibling's classification: with the empty split
present the leaf lands in column 1 of 2 and is classified `right`, whereas
alone it is column 0 and `center` — contradicting "contributing no columns
and not shifting sibling sessions' classification". -/
theorem empty_split_column_cex :
    computePositions (.splitter true [.splitter false [], .session 1])
      = [⟨1, .right, .middle, 0, 1⟩]
    ∧ computePositions (.splitter true [.session 1])
      = [⟨1, .center, .middle, 0, 0⟩] :=
  ⟨by decide, by decide⟩

/-- C9 amended: `compute_positions` is total on malformed trees — a split
with zero children yields the empty grid; merged vertically it contributes no
rows, but merged horizontally it is padded to one all-empty column in every
output row, which shifts sibling sessions' column indices and column
classification. -/
theorem empty_split_amended :
    (∀ v : Bool, buildGrid (.splitter v []) = [])
    ∧ mergeVertical [[], [[some 1]]] = [[some 1]]
    ∧ mergeHorizontal [[], [[some 1]]] = [[none, some 1]]
    ∧ computePositions (.splitter false [.splitter true [], .session 1])
        = [⟨1, .center, .middle, 0, 0⟩]
    ∧ computePositions (.splitter true [.splitter false [], .session 1])
        = [⟨1, .right, .middle, 0, 1⟩] :=
  ⟨fun v => by cases v <;> rfl, by decide, by decide, by decide, by decide⟩
